import Mathlib

/-!
Verification of the attention-visualizer repository.

Shallow embedding of the two source files:
  * `attention_visualizer.py` — the interactive renderer (layout geometry,
    threshold/edge selector, chain interaction state machine, search index,
    bound bars, value rounding before embedding);
  * `export_attention.py` — the binary codec (full, fp16, subset and
    chunked export with shape validation).

Numeric values are modelled as exact rationals (`ℚ`); machine floats are
not modelled.  JavaScript strings are modelled as `List Char`.
-/

/-! ## Generic helpers -/

/-- Minimum of a list of rationals, mirroring the JS pattern
`let mn = Infinity; for (v of xs) if (v < mn) mn = v;`.
On the empty list the JS value would be `Infinity`; the model returns a
junk default `0`, and every theorem that uses `listMin` on a possibly
empty list carries a non-emptiness hypothesis (except `redDivisor`,
where the source's `mx <= 0` guard makes the two agree). -/
def listMin : List ℚ → ℚ
  | [] => 0
  | x :: xs => xs.foldl min x

/-- Maximum of a list of rationals, mirroring
`let mx = -Infinity; for (v of xs) if (v > mx) mx = v;`
(same empty-list convention as `listMin`). -/
def listMax : List ℚ → ℚ
  | [] => 0
  | x :: xs => xs.foldl max x

/-- An attention matrix as embedded in the page: a list of rows of
rational values (`attnData[l][b][h]` in the source). -/
abbrev Mat := List (List ℚ)

/-! ## Threshold / edge selector (`updateThreshLines`, source lines 342–375) -/

/-- One candidate threshold-line entry `{r, c, v}` pushed by the selector
loop; `v` is the absolute value `Math.abs(m[r][c])`. -/
structure TLEntry where
  r : ℕ
  c : ℕ
  v : ℚ
deriving DecidableEq, Repr

/-- Cap on drawn threshold lines, `const MAX_TL = 600` (source line 185). -/
def MAX_TL : ℕ := 600

/-- All cells of the matrix with their indices and absolute values, in the
row-major order of the source's double loop
`for (r) for (c) { const v = Math.abs(m[r][c]); ... }`. -/
def matrixCells (m : Mat) : List TLEntry :=
  (m.enum.map (fun p => p.2.enum.map (fun q => ⟨p.1, q.1, |q.2|⟩))).flatten

/-- The minimum `mn` over all cells of `Math.abs(m[r][c])`. -/
def minAbs (m : Mat) : ℚ := listMin ((matrixCells m).map TLEntry.v)

/-- The maximum `mx` over all cells of `Math.abs(m[r][c])`. -/
def maxAbs (m : Mat) : ℚ := listMax ((matrixCells m).map TLEntry.v)

/-- The threshold computed from the integer slider value `sv`:
`const thresh = mn + (sv / 1000) * (mx - mn)`. -/
def threshold (m : Mat) (sv : ℕ) : ℚ :=
  minAbs m + ((sv : ℚ) / 1000) * (maxAbs m - minAbs m)

/-- The entries collected by the selector:
`if (v >= thresh) entries.push({r, c, v})`. -/
def selectedEntries (m : Mat) (sv : ℕ) : List TLEntry :=
  (matrixCells m).filter (fun e => threshold m sv ≤ e.v)

/-- The comparator `(a, b) => b.v - a.v` of `entries.sort`, as the Boolean
relation "`a` may come before `b`": descending by `v`. -/
def tlDesc (a b : TLEntry) : Bool := b.v ≤ a.v

/-- Entries after `entries.sort((a, b) => b.v - a.v)`. -/
def sortedEntries (m : Mat) (sv : ℕ) : List TLEntry :=
  (selectedEntries m sv).mergeSort tlDesc

/-- The entries actually drawn: `const drawn = entries.slice(0, MAX_TL)`. -/
def drawnEntries (m : Mat) (sv : ℕ) : List TLEntry :=
  (sortedEntries m sv).take MAX_TL

/-! ## Chain interaction state machine (source lines 381–549) -/

/-- A chain element `{col, idx}`: node column and row index. -/
structure ChainElem where
  col : ℕ
  idx : ℕ
deriving DecidableEq, Repr

/-- One node-column click at `(col c, row i)` processed by the SVG click
handler (source lines 519–548), restricted to its effect on the `chain`
list.  Mirrors, in order: the empty-chain push; the
`pos === chain.length && chain[chain.length-1].col < L` extend; the
`pos >= 0 && pos < chain.length` collapse-on-reclick / replace; and the
final reset (`clearChain` followed by a one-element push). -/
def clickNode (L : ℕ) (ch : List ChainElem) (c i : ℕ) : List ChainElem :=
  if ch.length = 0 then [⟨c, i⟩]
  else
    let startCol := (ch.headD ⟨0, 0⟩).col
    let pos : ℤ := (c : ℤ) - (startCol : ℤ)
    if pos = (ch.length : ℤ) ∧ (ch.getLast?.getD ⟨0, 0⟩).col < L then
      ch ++ [⟨c, i⟩]
    else if 0 ≤ pos ∧ pos < (ch.length : ℤ) then
      if (ch.getD pos.toNat ⟨0, 0⟩).idx = i then ch.take pos.toNat
      else ch.set pos.toNat ⟨c, i⟩
    else [⟨c, i⟩]

/-- Fold a sequence of node clicks (pairs `(col, row)`) through the click
handler, starting from the empty chain. -/
def processClicks (L : ℕ) (clicks : List (ℕ × ℕ)) : List ChainElem :=
  clicks.foldl (fun ch p => clickNode L ch p.1 p.2) []

/-- The chain invariant of the spec: columns are consecutive starting at
the head's column (`chain[i].column == chain[0].column + i`), and a
non-empty chain starts at a column `≤ L`. -/
def chainOk (L : ℕ) (ch : List ChainElem) : Prop :=
  (∀ i, ∀ hi : i < ch.length, (ch.get ⟨i, hi⟩).col = (ch.headD ⟨0, 0⟩).col + i)
  ∧ (ch ≠ [] → (ch.headD ⟨0, 0⟩).col ≤ L)

/-! ## Layout geometry (source lines 59–72 and 191–192) -/

/-- Left edge of the name block, `nameBlockX = 5`. -/
def nameBlockX : ℕ := 5

/-- Width of the name block, `nameBlockW = 200`. -/
def nameBlockW : ℕ := 200

/-- Gap holding the dashed guide lines, `guideGap = 25`. -/
def guideGap : ℕ := 25

/-- Node width, `nodeW = 22`. -/
def nodeW : ℕ := 22

/-- Column spacing, `colSpacing = 175`. -/
def colSpacing : ℕ := 175

/-- Top padding, `topPad = 50`. -/
def topPad : ℕ := 50

/-- The total fixed horizontal gap between the name block and node
column 0 in the source: the left margin `nameBlockX` plus `guideGap`
(the spec calls this combined constant `fixedGuideGap`). -/
def fixedGuideGap : ℕ := nameBlockX + guideGap

/-- The x coordinate of node column 0:
`col0_x = nameBlockX + nameBlockW + guideGap`. -/
def col0_x : ℕ := nameBlockX + nameBlockW + guideGap

/-- Column x coordinates `colX = [col0_x + i * colSpacing for i in range(L + 1)]`. -/
def colX (L : ℕ) : List ℕ :=
  (List.range (L + 1)).map (fun i => col0_x + i * colSpacing)

/-- Row y coordinates:
`for (let i = 0; i < N; i++) yPos.push(topPad + i * (nodeH + gap));`. -/
def yPos (N node_h gap : ℕ) : List ℕ :=
  (List.range N).map (fun i => topPad + i * (node_h + gap))

/-! ## Search index (`getMatches`, source lines 582–595) -/

/-- JS `s.toLowerCase()` on a string modelled as a character list
(ASCII case mapping, as provided by `Char.toLower`). -/
def lowerStr (s : List Char) : List Char := s.map Char.toLower

/-- JS `s.startsWith(q)` on character lists. -/
def strStarts : List Char → List Char → Bool
  | _, [] => true
  | [], _ :: _ => false
  | a :: s, b :: t => a = b && strStarts s t

/-- JS `s.includes(q)` on character lists: `q` occurs contiguously in `s`. -/
def strIncl (s q : List Char) : Bool :=
  strStarts s q ||
    match s with
    | [] => false
    | _ :: t => strIncl t q

/-- The score assigned to one entity by the `getMatches` loop, given the
lowercased id, lowercased display name, and lowercased query:
`3` id starts with query, else `2` id contains it, else `1` name contains
it, else the initial `-1`. -/
def scoreOf (idLower nameLower q : List Char) : ℤ :=
  if strStarts idLower q then 3
  else if strIncl idLower q then 2
  else if strIncl nameLower q then 1
  else -1

/-- One element `{idx, score}` pushed onto `scored`. -/
structure ScoredHit where
  idx : ℕ
  score : ℤ
deriving DecidableEq, Repr

/-- The comparator `(a, b) => b.score - a.score || a.idx - b.idx` of
`scored.sort`, as the Boolean relation "`a` may come before `b`":
descending score, ties broken by ascending index. -/
def hitLe (a b : ScoredHit) : Bool :=
  b.score < a.score || (a.score = b.score && a.idx ≤ b.idx)

/-- The strict "ranks above" order on scored hits: higher score first,
ties broken by lower original index. -/
def hitAbove (a b : ScoredHit) : Prop :=
  b.score < a.score ∨ (a.score = b.score ∧ a.idx < b.idx)

/-- The score `getMatches` computes for entity `i`: the source matches
`idsLower[i]` and `fullNamesLower[i]` (the precomputed lowercased data)
against the lowercased query; `idsLower[i] = lowerStr ids[i]`, so the
per-entity lowering here is the same computation. -/
def entityScore (ids fullNames : List (List Char)) (query : List Char)
    (i : ℕ) : ℤ :=
  scoreOf (lowerStr (ids.getD i [])) (lowerStr (fullNames.getD i []))
    (lowerStr query)

/-- The search index `getMatches(query)`: empty query gives no matches;
otherwise score every entity against the lowercased query, keep positive
scores, sort by the comparator, and keep the first 12. -/
def getMatches (ids fullNames : List (List Char)) (query : List Char) :
    List ScoredHit :=
  if query.isEmpty then []
  else
    let scored :=
      ((List.range ids.length).map (fun i =>
        (⟨i, entityScore ids fullNames query i⟩ : ScoredHit))).filter
        (fun s => 0 < s.score)
    (scored.mergeSort hitLe).take 12

/-! ## Bound bars (`updateRedFills`, source lines 274–280) -/

/-- The divisor used for the red bar widths: the maximum of
`Math.abs(bv[i])`, replaced by `1` when `mx <= 0`.  (For an empty `bv`
the JS maximum is `-Infinity ≤ 0`, so the guard fires there too; the
model's `listMax [] = 0 ≤ 0` agrees.) -/
def redDivisor (bv : List ℚ) : ℚ :=
  let mx := listMax (bv.map (fun x => |x|))
  if mx ≤ 0 then 1 else mx

/-- The red bar widths
`redRects[i].setAttribute('width', (Math.abs(bv[i]) / mx) * nameBlockW)`. -/
def redWidths (bv : List ℚ) : List ℚ :=
  bv.map (fun x => |x| / redDivisor bv * (nameBlockW : ℚ))

/-! ## Value rounding before embedding (`show_attention_graph`, lines 46–47) -/

/-- Round a rational to the nearest integer, ties to even — the rounding
mode of `np.round`. -/
def roundHalfEven (q : ℚ) : ℤ :=
  let f := ⌊q⌋
  if q - f < 1 / 2 then f
  else if 1 / 2 < q - f then f + 1
  else if f % 2 = 0 then f else f + 1

/-- Round to 6 decimal places, the exact-arithmetic reading of
`np.round(x, 6)`. -/
def round6 (q : ℚ) : ℚ := (roundHalfEven (q * 1000000) : ℚ) / 1000000

/-- One layer's attention tensor as a nested list: batch × head × (N×N). -/
abbrev Tensor4 := List (List Mat)

/-- Elementwise `round6` on a matrix. -/
def roundMat (m : Mat) : Mat := m.map (fun row => row.map round6)

/-- Elementwise `round6` on one layer tensor. -/
def roundTensor (t : Tensor4) : Tensor4 := t.map (fun b => b.map roundMat)

/-- The data `show_attention_graph` embeds into the rendered page:
`attn_data = [np.round(t, 6).tolist() for t in attention_tensors]` and
`bounds_data = np.round(input_bounds, 6).tolist()`. -/
structure Artifact where
  attnData : List Tensor4
  boundsData : List (List ℚ)
deriving Repr

/-- The embedding step of `show_attention_graph`: every attention value
and every bound value is rounded to 6 decimals before being serialized
into the page. -/
def showAttentionGraphData (tensors : List Tensor4) (bounds : List (List ℚ)) :
    Artifact :=
  ⟨tensors.map roundTensor, bounds.map (fun row => row.map round6)⟩

/-- The matrix the interactive view reads for layer `l`, batch `b`,
head `h`: `attnData[l][curBatch()][head]` (JS `getMatrix`, with the
slider state made explicit). -/
def getMatrix (a : Artifact) (l b h : ℕ) : Mat :=
  ((a.attnData.getD l []).getD b []).getD h []

/-! ## Binary codec (`export_attention.py`) -/

/-- A numpy array: an explicit shape and the row-major flattened data. -/
structure NDArray where
  shape : List ℕ
  data : List ℚ
deriving DecidableEq, Repr

/-- A well-formed array holds exactly `shape.prod` scalars. -/
def NDArray.wellFormed (t : NDArray) : Prop := t.data.length = t.shape.prod

/-- Number of scalars in one slice along axis 0. -/
def NDArray.rowLen (t : NDArray) : ℕ := t.shape.tail.prod

/-- The flattened slice `t[i]` along axis 0. -/
def NDArray.row (t : NDArray) (i : ℕ) : List ℚ :=
  (t.data.drop (i * t.rowLen)).take t.rowLen

/-- Numpy fancy indexing `t[idxs]` along axis 0 (duplicates and arbitrary
order honored): stack the selected axis-0 slices. -/
def NDArray.index0 (t : NDArray) (idxs : List ℕ) : NDArray :=
  ⟨idxs.length :: t.shape.tail, (idxs.map t.row).flatten⟩

/-- The shape-validation failures of the export functions, with the data
each assert message carries (observed vs expected). -/
inductive ShapeError where
  | idsLength (got expected : ℕ)
  | boundsShape (got expected : List ℕ)
  | layerShape (layer : ℕ) (got expected : List ℕ)
deriving DecidableEq, Repr

/-- The content an export writes after its header-length word: the JSON
header fields in source order, then the bounds block, then one data block
per layer.  (The byte-level rendering of numbers — float32, or float16
for the layers when `dtype` is `"float16"` — is below the granularity of
this model; the claims under verification concern validation, layout and
which scalars are emitted, not their bit patterns.) -/
structure EncodedFile where
  N : ℕ
  B : ℕ
  H : ℕ
  L : ℕ
  dtype : Option String
  reaction_ids : List String
  full_names : List String
  boundsData : List ℚ
  layersData : List (List ℚ)
deriving DecidableEq, Repr

/-- The loop `for i, t in enumerate(attention_tensors): assert t.shape == (B, H, N, N)`:
returns the first layer index whose shape differs from `expected`,
together with that shape, starting the index count at `k`. -/
def checkLayersFrom (expected : List ℕ) : ℕ → List NDArray → Option (ℕ × List ℕ)
  | _, [] => none
  | k, t :: ts =>
    if t.shape ≠ expected then some (k, t.shape)
    else checkLayersFrom expected (k + 1) ts

/-- First offending layer (index and actual shape), if any. -/
def checkLayers (expected : List ℕ) (ts : List NDArray) : Option (ℕ × List ℕ) :=
  checkLayersFrom expected 0 ts

/-- Default argument for reading the first tensor of a possibly empty
list, standing in for Python's `attention_tensors[0]`. -/
def emptyNDArray : NDArray := ⟨[], []⟩

/-- Full float32 export (`export_attention_data`): derive `(B, H, N)` from
the first tensor's shape, assert `len(reaction_ids) == N`, assert
`input_bounds.shape == (B, N)`, assert every layer's shape is
`(B, H, N, N)` (reporting the offending layer index with actual and
expected shape), and only then emit the file content. -/
def export_attention_data (reaction_ids : List String)
    (reaction_names_dict : List (String × String))
    (attention_tensors : List NDArray) (input_bounds : NDArray) :
    Except ShapeError EncodedFile :=
  let L := attention_tensors.length
  let s0 := (attention_tensors.headD emptyNDArray).shape
  let B := s0.getD 0 0
  let H := s0.getD 1 0
  let N := s0.getD 2 0
  if reaction_ids.length ≠ N then .error (.idsLength reaction_ids.length N)
  else if input_bounds.shape ≠ [B, N] then
    .error (.boundsShape input_bounds.shape [B, N])
  else
    match checkLayers [B, H, N, N] attention_tensors with
    | some (i, s) => .error (.layerShape i s [B, H, N, N])
    | none =>
      .ok ⟨N, B, H, L, none, reaction_ids,
        reaction_ids.map (fun rid => (reaction_names_dict.lookup rid).getD rid),
        input_bounds.data, attention_tensors.map NDArray.data⟩

/-- Reduced-precision export (`export_attention_data_fp16`): derives
`(B, H, N)` the same way and asserts `len(reaction_ids) == N` and
`input_bounds.shape == (B, N)`, but — unlike the float32 path — contains
no per-layer shape check; it then emits the file content with
`dtype: "float16"`. -/
def export_attention_data_fp16 (reaction_ids : List String)
    (reaction_names_dict : List (String × String))
    (attention_tensors : List NDArray) (input_bounds : NDArray) :
    Except ShapeError EncodedFile :=
  let L := attention_tensors.length
  let s0 := (attention_tensors.headD emptyNDArray).shape
  let B := s0.getD 0 0
  let H := s0.getD 1 0
  let N := s0.getD 2 0
  if reaction_ids.length ≠ N then .error (.idsLength reaction_ids.length N)
  else if input_bounds.shape ≠ [B, N] then
    .error (.boundsShape input_bounds.shape [B, N])
  else
    .ok ⟨N, B, H, L, some "float16", reaction_ids,
      reaction_ids.map (fun rid => (reaction_names_dict.lookup rid).getD rid),
      input_bounds.data, attention_tensors.map NDArray.data⟩

/-- Subset export (`export_attention_subset`): when `batch_indices` is
given, project bounds and every layer along the batch axis
(`input_bounds[batch_indices]`, `t[batch_indices]`), then delegate to the
fp16 or float32 encoder. -/
def export_attention_subset (reaction_ids : List String)
    (reaction_names_dict : List (String × String))
    (attention_tensors : List NDArray) (input_bounds : NDArray)
    (batch_indices : Option (List ℕ)) (fp16 : Bool) :
    Except ShapeError EncodedFile :=
  let projT := match batch_indices with
    | none => attention_tensors
    | some idxs => attention_tensors.map (fun t => t.index0 idxs)
  let projB := match batch_indices with
    | none => input_bounds
    | some idxs => input_bounds.index0 idxs
  if fp16 then
    export_attention_data_fp16 reaction_ids reaction_names_dict projT projB
  else
    export_attention_data reaction_ids reaction_names_dict projT projB

/-- Python `range(start, stop, step)` for a positive step. -/
def pyRangeStep (start stop step : ℕ) : List ℕ :=
  if h : 0 < step ∧ start < stop then
    start :: pyRangeStep (start + step) stop step
  else []
termination_by stop - start
decreasing_by omega

/-- The batch index lists of `export_attention_chunked`:
`for start in range(0, B, chunk_size): indices = list(range(start, min(start + chunk_size, B)))`. -/
def chunkIndexRanges (B chunk_size : ℕ) : List (List ℕ) :=
  (pyRangeStep 0 B chunk_size).map
    (fun start => List.range' start (min (start + chunk_size) B - start))

/-- Chunked export (`export_attention_chunked`): one subset export per
chunk index range, written to `chunk_<k>.attnbin` in emission order. -/
def export_attention_chunked (reaction_ids : List String)
    (reaction_names_dict : List (String × String))
    (attention_tensors : List NDArray) (input_bounds : NDArray)
    (chunk_size : ℕ) (fp16 : Bool) :
    List (String × Except ShapeError EncodedFile) :=
  let B := (attention_tensors.headD emptyNDArray).shape.getD 0 0
  (chunkIndexRanges B chunk_size).enum.map
    (fun p => ("chunk_" ++ toString p.1 ++ ".attnbin",
      export_attention_subset reaction_ids reaction_names_dict
        attention_tensors input_bounds (some p.2) fp16))

/-! ## Helper lemmas -/

theorem foldlMin_le (t : List ℚ) :
    ∀ x y : ℚ, y ∈ x :: t → t.foldl min x ≤ y := by
  induction t with
  | nil =>
    intro x y hy
    simp only [List.mem_singleton] at hy
    simp [hy]
  | cons a t ih =>
    intro x y hy
    simp only [List.foldl_cons]
    rcases List.mem_cons.mp hy with h | h
    · exact le_trans (ih (min x a) (min x a) (List.mem_cons_self _ _))
        (by rw [h]; exact min_le_left _ _)
    · rcases List.mem_cons.mp h with h' | h'
      · exact le_trans (ih (min x a) (min x a) (List.mem_cons_self _ _))
          (by rw [h']; exact min_le_right _ _)
      · exact ih (min x a) y (List.mem_cons_of_mem _ h')

theorem foldlMin_mem (t : List ℚ) : ∀ x : ℚ, t.foldl min x ∈ x :: t := by
  induction t with
  | nil => intro x; simp
  | cons a t ih =>
    intro x
    simp only [List.foldl_cons]
    rcases List.mem_cons.mp (ih (min x a)) with h | h
    · rcases min_choice x a with h' | h' <;> rw [h, h'] <;> simp
    · exact List.mem_cons_of_mem _ (List.mem_cons_of_mem _ h)

theorem foldlMax_le (t : List ℚ) :
    ∀ x y : ℚ, y ∈ x :: t → y ≤ t.foldl max x := by
  induction t with
  | nil =>
    intro x y hy
    simp only [List.mem_singleton] at hy
    simp [hy]
  | cons a t ih =>
    intro x y hy
    simp only [List.foldl_cons]
    rcases List.mem_cons.mp hy with h | h
    · exact le_trans (by rw [h]; exact le_max_left x a)
        (ih (max x a) (max x a) (List.mem_cons_self _ _))
    · rcases List.mem_cons.mp h with h' | h'
      · exact le_trans (by rw [h']; exact le_max_right x a)
          (ih (max x a) (max x a) (List.mem_cons_self _ _))
      · exact ih (max x a) y (List.mem_cons_of_mem _ h')

theorem foldlMax_mem (t : List ℚ) : ∀ x : ℚ, t.foldl max x ∈ x :: t := by
  induction t with
  | nil => intro x; simp
  | cons a t ih =>
    intro x
    simp only [List.foldl_cons]
    rcases List.mem_cons.mp (ih (max x a)) with h | h
    · rcases max_choice x a with h' | h' <;> rw [h, h'] <;> simp
    · exact List.mem_cons_of_mem _ (List.mem_cons_of_mem _ h)

theorem listMin_le (xs : List ℚ) (y : ℚ) (hy : y ∈ xs) : listMin xs ≤ y := by
  cases xs with
  | nil => cases hy
  | cons x t => exact foldlMin_le t x y hy

theorem listMin_mem (xs : List ℚ) (hx : xs ≠ []) : listMin xs ∈ xs := by
  cases xs with
  | nil => exact absurd rfl hx
  | cons x t => exact foldlMin_mem t x

theorem le_listMax (xs : List ℚ) (y : ℚ) (hy : y ∈ xs) : y ≤ listMax xs := by
  cases xs with
  | nil => cases hy
  | cons x t => exact foldlMax_le t x y hy

theorem listMax_mem (xs : List ℚ) (hx : xs ≠ []) : listMax xs ∈ xs := by
  cases xs with
  | nil => exact absurd rfl hx
  | cons x t => exact foldlMax_mem t x

/-- Membership characterization of the selector's cell enumeration. -/
theorem mem_matrixCells (m : Mat) (e : TLEntry) :
    e ∈ matrixCells m ↔
      ∃ (hr : e.r < m.length) (hc : e.c < (m.get ⟨e.r, hr⟩).length),
        e.v = |(m.get ⟨e.r, hr⟩).get ⟨e.c, hc⟩| := by
  unfold matrixCells
  rw [List.mem_flatten]
  constructor
  · rintro ⟨l, hl, hel⟩
    rcases List.mem_map.mp hl with ⟨⟨r, row⟩, hp, rfl⟩
    rcases List.mem_map.mp hel with ⟨⟨c, v⟩, hq, rfl⟩
    obtain ⟨hr, hrow⟩ := List.mem_enum hp
    simp only at hrow hq ⊢
    rw [hrow] at hq
    obtain ⟨hc, hval⟩ := List.mem_enum hq
    refine ⟨hr, ?_⟩
    simp only [List.get_eq_getElem]
    exact ⟨hc, by rw [hval]⟩
  · rintro ⟨hr, hc, hv⟩
    simp only [List.get_eq_getElem] at hc hv
    refine ⟨(fun q => (⟨e.r, q.1, |q.2|⟩ : TLEntry)) <$> (m[e.r]).enum,
      List.mem_map.mpr ⟨(e.r, m[e.r]), ?_, rfl⟩, ?_⟩
    · have hlen : e.r < m.enum.length := by simpa using hr
      have := List.getElem_enum m e.r hlen
      rw [← this]
      exact List.getElem_mem hlen
    · have hlen : e.c < (m[e.r]).enum.length := by simpa using hc
      refine List.mem_map.mpr ⟨(e.c, (m[e.r])[e.c]), ?_, ?_⟩
      · rw [← List.getElem_enum (m[e.r]) e.c hlen]
        exact List.getElem_mem hlen
      · cases e
        simp_all

/-- Sortedness of the selector's sorted entry list. -/
theorem sortedEntries_sorted (m : Mat) (sv : ℕ) :
    List.Sorted (fun a b : TLEntry => b.v ≤ a.v) (sortedEntries m sv) := by
  have h := @List.sorted_mergeSort TLEntry tlDesc
    (fun a b c hab hbc => by
      simp only [tlDesc, decide_eq_true_iff] at hab hbc ⊢
      exact le_trans hbc hab)
    (fun a b => by simp [tlDesc, le_total])
    (selectedEntries m sv)
  exact h.imp (fun hab => of_decide_eq_true hab)

/-- C1.  For every matrix `M` with at least one cell and every slider
value `s`, the edge selector computes `minAbs`/`maxAbs` as the genuine
minimum and maximum of `|M|` over all cells, sets
`threshold = min + (s/1000)*(max-min)`, selects exactly the cells with
`|M[r][c]| >= threshold`, orders the drawn list by descending magnitude,
draws at most `MAX_TL = 600` entries, and the drawn entries are
highest-magnitude among all selected ones. -/
theorem c1_edge_selector (m : Mat) (sv : ℕ) (hm : matrixCells m ≠ []) :
    (∀ e ∈ matrixCells m, minAbs m ≤ e.v ∧ e.v ≤ maxAbs m)
    ∧ minAbs m ∈ (matrixCells m).map TLEntry.v
    ∧ maxAbs m ∈ (matrixCells m).map TLEntry.v
    ∧ threshold m sv = minAbs m + ((sv : ℚ) / 1000) * (maxAbs m - minAbs m)
    ∧ (∀ e, e ∈ selectedEntries m sv ↔
        e ∈ matrixCells m ∧ threshold m sv ≤ e.v)
    ∧ (∀ e, e ∈ matrixCells m ↔
        ∃ (hr : e.r < m.length) (hc : e.c < (m.get ⟨e.r, hr⟩).length),
          e.v = |(m.get ⟨e.r, hr⟩).get ⟨e.c, hc⟩|)
    ∧ List.Sorted (fun a b : TLEntry => b.v ≤ a.v) (drawnEntries m sv)
    ∧ (drawnEntries m sv).length ≤ MAX_TL
    ∧ (∀ e ∈ drawnEntries m sv, e ∈ selectedEntries m sv)
    ∧ (∀ a ∈ drawnEntries m sv, ∀ b ∈ selectedEntries m sv,
        b ∉ drawnEntries m sv → b.v ≤ a.v) := by
  have hmapne : (matrixCells m).map TLEntry.v ≠ [] := by
    simpa using hm
  refine ⟨?_, ?_, ?_, rfl, ?_, fun e => mem_matrixCells m e, ?_, ?_, ?_, ?_⟩
  · intro e he
    have hv : e.v ∈ (matrixCells m).map TLEntry.v := List.mem_map_of_mem _ he
    exact ⟨listMin_le _ _ hv, le_listMax _ _ hv⟩
  · exact listMin_mem _ hmapne
  · exact listMax_mem _ hmapne
  · intro e
    simp [selectedEntries, List.mem_filter]
  · exact List.Pairwise.sublist (List.take_sublist _ _)
      (sortedEntries_sorted m sv)
  · exact List.length_take_le _ _
  · intro e he
    exact List.mem_mergeSort.mp
      ((List.take_sublist _ _).mem he)
  · intro a ha b hb hbnot
    have hsorted := sortedEntries_sorted m sv
    have hbmem : b ∈ sortedEntries m sv := List.mem_mergeSort.mpr hb
    have hbdrop : b ∈ (sortedEntries m sv).drop MAX_TL := by
      rcases List.mem_append.mp
        (by rw [List.take_append_drop MAX_TL (sortedEntries m sv)]; exact hbmem) with
        h | h
      · exact absurd h hbnot
      · exact h
    exact hsorted.rel_of_mem_take_of_mem_drop ha hbdrop

/-- Witness for C1 at a concrete 2×2 matrix and slider value 500. -/
theorem c1_edge_selector_witness :
    (drawnEntries [[(1 : ℚ)/2, 1/4], [3/4, 0]] 500).length ≤ MAX_TL :=
  (c1_edge_selector [[(1 : ℚ)/2, 1/4], [3/4, 0]] 500 (by decide)).2.2.2.2.2.2.2.1

/-- C6.  For a fixed matrix with at least one cell, the threshold is
non-decreasing in the slider value and the selected edge count (before
and after the 600 cap) is non-increasing. -/
theorem c6_threshold_monotone (m : Mat) (s1 s2 : ℕ) (hm : matrixCells m ≠ [])
    (h12 : s1 ≤ s2) (h1000 : s2 ≤ 1000) :
    threshold m s1 ≤ threshold m s2
    ∧ (selectedEntries m s2).length ≤ (selectedEntries m s1).length
    ∧ (drawnEntries m s2).length ≤ (drawnEntries m s1).length := by
  have hmapne : (matrixCells m).map TLEntry.v ≠ [] := by simpa using hm
  have hminmax : minAbs m ≤ maxAbs m :=
    le_listMax _ _ (listMin_mem _ hmapne)
  have hth : threshold m s1 ≤ threshold m s2 := by
    unfold threshold
    have hfac : ((s1 : ℚ) / 1000) ≤ ((s2 : ℚ) / 1000) := by
      apply div_le_div_of_nonneg_right ?_ (by norm_num)
      · exact_mod_cast h12
    have := mul_le_mul_of_nonneg_right hfac (sub_nonneg.mpr hminmax)
    linarith
  have hsel : (selectedEntries m s2).length ≤ (selectedEntries m s1).length := by
    apply List.Sublist.length_le
    apply List.monotone_filter_right
    intro a ha
    simp only [decide_eq_true_iff] at ha ⊢
    exact le_trans hth ha
  refine ⟨hth, hsel, ?_⟩
  simp only [drawnEntries, sortedEntries, List.length_take,
    List.length_mergeSort]
  exact min_le_min le_rfl hsel

/-- Witness for C6 at a concrete matrix and slider values 200 ≤ 700. -/
theorem c6_threshold_monotone_witness :
    threshold [[(1 : ℚ)/2, 1/4], [3/4, 0]] 200 ≤
      threshold [[(1 : ℚ)/2, 1/4], [3/4, 0]] 700 :=
  (c6_threshold_monotone [[(1 : ℚ)/2, 1/4], [3/4, 0]] 200 700 (by decide)
    (by decide) (by decide)).1

/-- Appending on the right does not change the head of a non-empty list. -/
theorem headD_append_of_ne_nil (ch : List ChainElem) (x d : ChainElem)
    (h : ch ≠ []) : (ch ++ [x]).headD d = ch.headD d := by
  cases ch with
  | nil => exact absurd rfl h
  | cons a t => rfl

/-- Taking a positive prefix does not change the head. -/
theorem headD_take_pos (ch : List ChainElem) (p : ℕ) (d : ChainElem)
    (hp : 0 < p) : (ch.take p).headD d = ch.headD d := by
  cases ch with
  | nil => simp
  | cons a t =>
    cases p with
    | zero => exact absurd hp (by simp)
    | succ q => rfl

/-- Head of a list after `set`: the new element at position 0, the old
head otherwise. -/
theorem headD_set (ch : List ChainElem) (p : ℕ) (a d : ChainElem)
    (hne : ch ≠ []) :
    (ch.set p a).headD d = if p = 0 then a else ch.headD d := by
  cases ch with
  | nil => exact absurd rfl hne
  | cons b t =>
    cases p with
    | zero => rfl
    | succ q => simp

/-- A single-element chain at a column `≤ L` satisfies the invariant. -/
theorem chainOk_singleton (L c i : ℕ) (hc : c ≤ L) :
    chainOk L [⟨c, i⟩] := by
  constructor
  · intro j hj
    simp only [List.length_singleton, Nat.lt_one_iff] at hj
    subst hj
    simp
  · intro _
    simpa using hc

/-- The click handler preserves the chain invariant whenever the clicked
column is a real node column (`c ≤ L`). -/
theorem clickNode_chainOk (L : ℕ) (ch : List ChainElem) (c i : ℕ)
    (hc : c ≤ L) (h : chainOk L ch) : chainOk L (clickNode L ch c i) := by
  obtain ⟨h1, h2⟩ := h
  by_cases hlen : ch.length = 0
  · have hnil : ch = [] := List.length_eq_zero.mp hlen
    subst hnil
    simpa [clickNode] using chainOk_singleton L c i hc
  · have hne : ch ≠ [] := fun hn => hlen (by simp [hn])
    have hhead : (ch.headD ⟨0, 0⟩).col ≤ L := h2 hne
    by_cases hP1 : ((c : ℤ) - ((ch.headD ⟨0, 0⟩).col : ℤ) = (ch.length : ℤ)
        ∧ (ch.getLast?.getD ⟨0, 0⟩).col < L)
    · -- Extend
      have hcval : c = (ch.headD ⟨0, 0⟩).col + ch.length := by omega
      rw [clickNode, if_neg hlen]
      simp only [if_pos hP1]
      constructor
      · intro j hj
        simp only [List.get_eq_getElem]
        rw [headD_append_of_ne_nil ch _ _ hne]
        have hj' : j < ch.length + 1 := by simpa using hj
        rcases Nat.lt_or_ge j ch.length with hlt | hge
        · rw [List.getElem_append_left hlt]
          have := h1 j hlt
          simpa using this
        · have hj0 : j = ch.length := by omega
          subst hj0
          rw [List.getElem_append_right (le_refl ch.length)]
          simpa using hcval
      · intro _
        rw [headD_append_of_ne_nil ch _ _ hne]
        exact hhead
    · by_cases hP2 : (0 ≤ (c : ℤ) - ((ch.headD ⟨0, 0⟩).col : ℤ)
          ∧ (c : ℤ) - ((ch.headD ⟨0, 0⟩).col : ℤ) < (ch.length : ℤ))
      · have hpn : ((c : ℤ) - ((ch.headD ⟨0, 0⟩).col : ℤ)).toNat < ch.length := by
          omega
        have hcval : c = (ch.headD ⟨0, 0⟩).col
            + ((c : ℤ) - ((ch.headD ⟨0, 0⟩).col : ℤ)).toNat := by omega
        by_cases hP3 : (ch.getD ((c : ℤ) - ((ch.headD ⟨0, 0⟩).col : ℤ)).toNat
            ⟨0, 0⟩).idx = i
        · -- Collapse / truncate
          rw [clickNode, if_neg hlen]
          simp only [if_neg hP1, if_pos hP2, if_pos hP3]
          set p := ((c : ℤ) - ((ch.headD ⟨0, 0⟩).col : ℤ)).toNat with hp
          constructor
          · intro j hj
            have hj' : j < p ∧ j < ch.length := by simpa using hj
            have hjp : j < p := hj'.1
            have hjlen : j < ch.length := hj'.2
            simp only [List.get_eq_getElem]
            rw [List.getElem_take]
            rw [headD_take_pos ch p _ (by omega)]
            have := h1 j hjlen
            simpa using this
          · intro hne'
            have hppos : 0 < p := by
              by_contra h0
              have : p = 0 := by omega
              exact hne' (by simp [this])
            rw [headD_take_pos ch p _ hppos]
            exact hhead
        · -- Replace
          rw [clickNode, if_neg hlen]
          simp only [if_neg hP1, if_pos hP2, if_neg hP3]
          set p := ((c : ℤ) - ((ch.headD ⟨0, 0⟩).col : ℤ)).toNat with hp
          have hheadset : ((ch.set p ⟨c, i⟩).headD ⟨0, 0⟩).col
              = (ch.headD ⟨0, 0⟩).col := by
            rw [headD_set ch p _ _ hne]
            by_cases h0 : p = 0
            · simp only [if_pos h0]
              omega
            · simp only [if_neg h0]
          constructor
          · intro j hj
            have hjlen : j < ch.length := by simpa using hj
            simp only [List.get_eq_getElem]
            rw [hheadset, List.getElem_set]
            by_cases hpj : p = j
            · simp only [if_pos hpj]
              omega
            · simp only [if_neg hpj]
              have := h1 j hjlen
              simpa using this
          · intro _
            rw [hheadset]
            exact hhead
      · -- Reset
        rw [clickNode, if_neg hlen]
        simp only [if_neg hP1, if_neg hP2]
        exact chainOk_singleton L c i hc

/-- C2.  After any sequence of node clicks on columns `0..L` processed
from the empty chain, the chain satisfies
`chain[i].column = chain[0].column + i` for every index `i`, and a
non-empty chain starts at a column `≤ L`. -/
theorem c2_chain_invariant (L : ℕ) (clicks : List (ℕ × ℕ))
    (hcols : ∀ p ∈ clicks, p.1 ≤ L) :
    chainOk L (processClicks L clicks) := by
  have main : ∀ (cs : List (ℕ × ℕ)) (ch : List ChainElem),
      (∀ p ∈ cs, p.1 ≤ L) → chainOk L ch →
      chainOk L (cs.foldl (fun acc p => clickNode L acc p.1 p.2) ch) := by
    intro cs
    induction cs with
    | nil => intro ch _ hch; exact hch
    | cons p ps ih =>
      intro ch hcl hch
      simp only [List.foldl_cons]
      exact ih _ (fun q hq => hcl q (List.mem_cons_of_mem _ hq))
        (clickNode_chainOk L ch p.1 p.2 (hcl p (List.mem_cons_self _ _)) hch)
  exact main clicks []
    (fun p hp => hcols p hp)
    ⟨fun j hj => absurd hj (by simp), fun hne => absurd rfl hne⟩

/-- Witness for C2 on a concrete click sequence exercising extend,
collapse, replace and reset. -/
theorem c2_chain_invariant_witness :
    chainOk 2 (processClicks 2 [(1, 3), (2, 4), (2, 4), (1, 5), (0, 9)]) :=
  c2_chain_invariant 2 [(1, 3), (2, 4), (2, 4), (1, 5), (0, 9)] (by decide)

/-- C8.  Layout geometry is the stated pure function of the
configuration: `yPos[i] = topPad + i*(nodeHeight+rowGap)` for every row,
and `colX[c] = colX[0] + c*columnSpacing` for every column `c ≤ L`, with
`colX[0] = nameBlockW + fixedGuideGap`. -/
theorem c8_layout_geometry (N L node_h gap : ℕ) :
    (∀ i, i < N → (yPos N node_h gap).getD i 0 = topPad + i * (node_h + gap))
    ∧ (∀ c, c ≤ L → (colX L).getD c 0 = (colX L).getD 0 0 + c * colSpacing)
    ∧ (colX L).getD 0 0 = nameBlockW + fixedGuideGap := by
  refine ⟨?_, ?_, ?_⟩
  · intro i hi
    rw [List.getD_eq_getElem _ _ (by simpa [yPos] using hi)]
    simp [yPos]
  · intro c hcL
    rw [List.getD_eq_getElem _ _
        (by simpa [colX] using Nat.lt_succ_of_le hcL),
      List.getD_eq_getElem _ _ (by simp [colX])]
    simp [colX]
  · rw [List.getD_eq_getElem _ _ (by simp [colX])]
    simp [colX, col0_x, nameBlockW, fixedGuideGap, nameBlockX, guideGap]

/-- Witness for C8 at `N = 3`, `L = 2`, default `node_h = 8`, `gap = 1`. -/
theorem c8_layout_geometry_witness :
    (yPos 3 8 1).getD 1 0 = topPad + 1 * (8 + 1) :=
  (c8_layout_geometry 3 2 8 1).1 1 (by decide)

/-- C10.  The bound-bar update is total and degenerate-safe: the divisor
is always positive (never zero), one width is produced per entry, a
non-positive maximum forces every width to `0`, and every width lies in
`[0, nameBlockW]`. -/
theorem c10_red_fills (bv : List ℚ) :
    0 < redDivisor bv
    ∧ (redWidths bv).length = bv.length
    ∧ (listMax (bv.map (fun x => |x|)) ≤ 0 → ∀ w ∈ redWidths bv, w = 0)
    ∧ (∀ w ∈ redWidths bv, 0 ≤ w ∧ w ≤ (nameBlockW : ℚ)) := by
  have hdiv : 0 < redDivisor bv := by
    by_cases h : listMax (bv.map (fun x => |x|)) ≤ 0
    · simp [redDivisor, h]
    · simp only [redDivisor, if_neg h]
      exact lt_of_not_le h
  refine ⟨hdiv, by simp [redWidths], ?_, ?_⟩
  · intro hmx w hw
    rcases List.mem_map.mp hw with ⟨x, hx, rfl⟩
    have habs : |x| ∈ bv.map (fun x => |x|) := List.mem_map_of_mem _ hx
    have h1 : |x| ≤ 0 := le_trans (le_listMax _ _ habs) hmx
    have h0 : |x| = 0 := le_antisymm h1 (abs_nonneg x)
    rw [h0]
    ring
  · intro w hw
    rcases List.mem_map.mp hw with ⟨x, hx, rfl⟩
    constructor
    · exact mul_nonneg (div_nonneg (abs_nonneg x) (le_of_lt hdiv)) (by norm_num)
    · have hxle : |x| ≤ redDivisor bv := by
        by_cases h : listMax (bv.map (fun x => |x|)) ≤ 0
        · have habs : |x| ∈ bv.map (fun x => |x|) := List.mem_map_of_mem _ hx
          have := le_trans (le_listMax _ _ habs) h
          simpa [redDivisor, h] using le_trans this (by norm_num)
        · simp only [redDivisor, if_neg h]
          exact le_listMax _ _ (List.mem_map_of_mem _ hx)
      have hfrac : |x| / redDivisor bv ≤ 1 := (div_le_one hdiv).mpr hxle
      calc |x| / redDivisor bv * (nameBlockW : ℚ)
          ≤ 1 * (nameBlockW : ℚ) :=
            mul_le_mul_of_nonneg_right hfrac (by norm_num)
        _ = (nameBlockW : ℚ) := one_mul _

/-- Pushing `getD` through `map`. -/
theorem getD_map_general {α β : Type} (f : α → β) (l : List α) (i : ℕ)
    (d : α) : (l.map f).getD i (f d) = f (l.getD i d) := by
  rcases Nat.lt_or_ge i l.length with h | h
  · rw [List.getD_eq_getElem _ _ (by simpa using h),
      List.getD_eq_getElem _ _ h, List.getElem_map]
  · rw [List.getD_eq_default _ _ (by simpa using h),
      List.getD_eq_default _ _ h]

/-- Rounding fixes zero. -/
theorem round6_zero : round6 0 = 0 := by
  unfold round6 roundHalfEven
  norm_num

/-- Layer lookup commutes with elementwise rounding. -/
theorem roundTensor_getD (ts : List Tensor4) (l : ℕ) :
    (ts.map roundTensor).getD l [] = roundTensor (ts.getD l []) := by
  simpa [roundTensor] using getD_map_general roundTensor ts l []

/-- Batch lookup commutes with per-batch matrix rounding. -/
theorem mapRoundMat_getD (t : Tensor4) (b : ℕ) :
    (t.map (fun x => x.map roundMat)).getD b [] = (t.getD b []).map roundMat := by
  simpa using getD_map_general (fun x => x.map roundMat) t b []

/-- Head lookup commutes with matrix rounding. -/
theorem roundMat_getD (x : List Mat) (h : ℕ) :
    (x.map roundMat).getD h [] = roundMat (x.getD h []) := by
  simpa [roundMat] using getD_map_general roundMat x h []

/-- Row lookup commutes with per-row rounding. -/
theorem mapRound6_getD (m : Mat) (r : ℕ) :
    (m.map (fun row => row.map round6)).getD r [] = (m.getD r []).map round6 := by
  simpa using getD_map_general (fun row => row.map round6) m r []

/-- Cell lookup commutes with rounding. -/
theorem round6_getD (row : List ℚ) (c : ℕ) :
    (row.map round6).getD c 0 = round6 (row.getD c 0) := by
  have h := getD_map_general round6 row c 0
  rw [round6_zero] at h
  exact h

/-- C9.  The values embedded in the rendered artifact are the inputs
rounded to 6 decimal places, so the matrix the interactive view reads
for any `(layer, batch, head)`, each attention value, each bound value,
and the view's threshold computation are all derived from the rounded
values rather than from the raw input tensors. -/
theorem c9_rounded_embedding (tensors : List Tensor4)
    (bounds : List (List ℚ)) (l b h r c bi ri sv : ℕ) :
    getMatrix (showAttentionGraphData tensors bounds) l b h
      = roundMat (((tensors.getD l []).getD b []).getD h [])
    ∧ ((getMatrix (showAttentionGraphData tensors bounds) l b h).getD r
        []).getD c 0
      = round6 (((((tensors.getD l []).getD b []).getD h []).getD r
          []).getD c 0)
    ∧ ((showAttentionGraphData tensors bounds).boundsData.getD bi
        []).getD ri 0
      = round6 ((bounds.getD bi []).getD ri 0)
    ∧ threshold (getMatrix (showAttentionGraphData tensors bounds) l b h) sv
      = threshold (roundMat (((tensors.getD l []).getD b []).getD h [])) sv
    := by
  have hmat : getMatrix (showAttentionGraphData tensors bounds) l b h
      = roundMat (((tensors.getD l []).getD b []).getD h []) := by
    simp only [getMatrix, showAttentionGraphData]
    rw [roundTensor_getD]
    simp only [roundTensor]
    rw [mapRoundMat_getD, roundMat_getD]
  refine ⟨hmat, ?_, ?_, by rw [hmat]⟩
  · rw [hmat]
    simp only [roundMat]
    rw [mapRound6_getD, round6_getD]
  · simp only [showAttentionGraphData]
    rw [mapRound6_getD, round6_getD]

/-- The comparator is transitive. -/
theorem hitLe_trans (a b c : ScoredHit) (hab : hitLe a b = true)
    (hbc : hitLe b c = true) : hitLe a c = true := by
  simp only [hitLe, Bool.or_eq_true, Bool.and_eq_true,
    decide_eq_true_iff] at hab hbc ⊢
  omega

/-- The comparator is total. -/
theorem hitLe_total (a b : ScoredHit) : (hitLe a b || hitLe b a) = true := by
  simp only [hitLe, Bool.or_eq_true, Bool.and_eq_true,
    decide_eq_true_iff]
  omega

/-- C7.  For every non-empty query: the result has at most 12 entries,
is strictly ordered by descending score with ties broken by ascending
original index, contains only entities whose recorded score is positive
and equals the 3/2/1 scoring rule applied to that entity (so entities
matching neither id nor name are excluded), any id-prefix match (score 3)
is in the result whenever a name-only match (score 1) is, the result
depends only on the lowercased query (case-insensitivity), and the
ordered result is uniquely determined (determinism). -/
theorem c7_search_ranking (ids fullNames : List (List Char))
    (query : List Char) (hq : query ≠ []) :
    (getMatches ids fullNames query).length ≤ 12
    ∧ List.Pairwise hitAbove (getMatches ids fullNames query)
    ∧ (∀ s ∈ getMatches ids fullNames query,
        s.idx < ids.length ∧ 0 < s.score
          ∧ s.score = entityScore ids fullNames query s.idx)
    ∧ (∀ a ∈ getMatches ids fullNames query, a.score = 1 →
        ∀ j, j < ids.length → entityScore ids fullNames query j = 3 →
          (⟨j, 3⟩ : ScoredHit) ∈ getMatches ids fullNames query)
    ∧ (∀ q', lowerStr q' = lowerStr query →
        getMatches ids fullNames q' = getMatches ids fullNames query)
    ∧ (∀ l', List.Perm l' (getMatches ids fullNames query) →
        List.Pairwise hitAbove l' → l' = getMatches ids fullNames query) := by
  have hqe : query.isEmpty = false := by
    cases query with
    | nil => exact absurd rfl hq
    | cons a t => rfl
  have hunfold : getMatches ids fullNames query =
      ((((List.range ids.length).map (fun i =>
        (⟨i, entityScore ids fullNames query i⟩ : ScoredHit))).filter
        (fun s => 0 < s.score)).mergeSort hitLe).take 12 := by
    simp [getMatches, hqe]
  set scored := (((List.range ids.length).map (fun i =>
      (⟨i, entityScore ids fullNames query i⟩ : ScoredHit))).filter
      (fun s => 0 < s.score)) with hscored
  have hsortLe : List.Pairwise (fun a b => hitLe a b = true)
      (scored.mergeSort hitLe) :=
    List.sorted_mergeSort hitLe_trans hitLe_total scored
  have hresultLe : List.Pairwise (fun a b => hitLe a b = true)
      (getMatches ids fullNames query) := by
    rw [hunfold]
    exact List.Pairwise.sublist (List.take_sublist _ _) hsortLe
  have hcomp : (ScoredHit.idx ∘ fun i =>
      (⟨i, entityScore ids fullNames query i⟩ : ScoredHit)) = id := by
    funext i
    rfl
  have hnodup_scored : (scored.map ScoredHit.idx).Nodup := by
    have hsub0 : List.Sublist scored ((List.range ids.length).map (fun i =>
        (⟨i, entityScore ids fullNames query i⟩ : ScoredHit))) := by
      rw [hscored]
      exact List.filter_sublist _
    have hsub := List.Sublist.map ScoredHit.idx hsub0
    rw [List.map_map, hcomp, List.map_id] at hsub
    exact List.Sublist.nodup hsub (List.nodup_range ids.length)
  have hnodup_sorted : ((scored.mergeSort hitLe).map ScoredHit.idx).Nodup :=
    (((List.mergeSort_perm scored hitLe).map ScoredHit.idx).nodup_iff).mpr
      hnodup_scored
  have hnodup_result :
      ((getMatches ids fullNames query).map ScoredHit.idx).Nodup := by
    rw [hunfold]
    exact List.Sublist.nodup
      (List.Sublist.map ScoredHit.idx (List.take_sublist _ _)) hnodup_sorted
  have hpair_ne : List.Pairwise (fun a b : ScoredHit => a.idx ≠ b.idx)
      (getMatches ids fullNames query) :=
    List.pairwise_map.mp hnodup_result
  have hpair_above : List.Pairwise hitAbove (getMatches ids fullNames query) := by
    have hand := List.Pairwise.and hresultLe hpair_ne
    apply hand.imp
    intro a b hab
    obtain ⟨h1, h2⟩ := hab
    simp only [hitLe, Bool.or_eq_true, Bool.and_eq_true,
      decide_eq_true_iff] at h1
    unfold hitAbove
    omega
  refine ⟨?_, hpair_above, ?_, ?_, ?_, ?_⟩
  · rw [hunfold]
    exact List.length_take_le _ _
  · intro s hs
    rw [hunfold] at hs
    have h1 : s ∈ scored.mergeSort hitLe := (List.take_sublist _ _).mem hs
    have h2 : s ∈ scored := List.mem_mergeSort.mp h1
    obtain ⟨hmem, hpos⟩ := List.mem_filter.mp h2
    rcases List.mem_map.mp hmem with ⟨i, hi, rfl⟩
    exact ⟨List.mem_range.mp hi, by simpa using hpos, rfl⟩
  · intro a ha ha1 j hj hj3
    have hbscored : (⟨j, 3⟩ : ScoredHit) ∈ scored := by
      apply List.mem_filter.mpr
      refine ⟨List.mem_map.mpr ⟨j, List.mem_range.mpr hj, ?_⟩, by simp⟩
      rw [hj3]
    have hbmem : (⟨j, 3⟩ : ScoredHit) ∈ scored.mergeSort hitLe :=
      List.mem_mergeSort.mpr hbscored
    by_contra hnot
    have hbdrop : (⟨j, 3⟩ : ScoredHit) ∈ (scored.mergeSort hitLe).drop 12 := by
      rcases List.mem_append.mp
        (by rw [List.take_append_drop 12 (scored.mergeSort hitLe)]
            exact hbmem) with hcase | hcase
      · exact absurd (by rw [hunfold]; exact hcase) hnot
      · exact hcase
    rw [hunfold] at ha
    have hrel := List.Sorted.rel_of_mem_take_of_mem_drop hsortLe ha hbdrop
    simp only [hitLe, Bool.or_eq_true, Bool.and_eq_true,
      decide_eq_true_iff] at hrel
    omega
  · intro q' hmapq
    have hq' : q' ≠ [] := by
      intro h0
      subst h0
      simp only [lowerStr, List.map_nil] at hmapq
      have : query = [] := by
        cases query with
        | nil => rfl
        | cons a t => simp [lowerStr] at hmapq
      exact hq this
    have hqe' : q'.isEmpty = false := by
      cases q' with
      | nil => exact absurd rfl hq'
      | cons a t => rfl
    have hE : ∀ i, entityScore ids fullNames q' i
        = entityScore ids fullNames query i := by
      intro i
      unfold entityScore
      rw [hmapq]
    simp only [getMatches, hqe, hqe', Bool.false_eq_true, if_false, hE]
  · haveI : IsAntisymm ScoredHit hitAbove := ⟨by
      intro a b hab hba
      exfalso
      unfold hitAbove at hab hba
      omega⟩
    intro l' hperm hsort'
    exact List.eq_of_perm_of_sorted hperm hsort' hpair_above

/-- Witness for C7 on a tiny concrete dataset and the query "a". -/
theorem c7_search_ranking_witness :
    (getMatches [['a', 'b'], ['c', 'a'], ['x']]
      [['z'], ['q'], ['a', 'b']] ['a']).length ≤ 12 :=
  (c7_search_ranking [['a', 'b'], ['c', 'a'], ['x']]
    [['z'], ['q'], ['a', 'b']] ['a'] (by decide)).1

/-- Unfolding `pyRangeStep` when the loop runs. -/
theorem pyRangeStep_pos (start stop step : ℕ) (h : 0 < step ∧ start < stop) :
    pyRangeStep start stop step
      = start :: pyRangeStep (start + step) stop step := by
  rw [pyRangeStep, dif_pos h]

/-- Unfolding `pyRangeStep` when the loop is done (or the step is 0). -/
theorem pyRangeStep_nil (start stop step : ℕ)
    (h : ¬(0 < step ∧ start < stop)) :
    pyRangeStep start stop step = [] := by
  rw [pyRangeStep, dif_neg h]

/-- Element formula for `pyRangeStep`: the `i`-th start is
`start + i * step`. -/
theorem pyRangeStep_getD (step : ℕ) (hstep : 0 < step) :
    ∀ (n start stop i : ℕ), stop - start ≤ n →
      i < (pyRangeStep start stop step).length →
      (pyRangeStep start stop step).getD i 0 = start + i * step := by
  intro n
  induction n with
  | zero =>
    intro start stop i hle hi
    rw [pyRangeStep_nil start stop step (by omega)] at hi
    simp at hi
  | succ n ih =>
    intro start stop i hle hi
    by_cases hlt : start < stop
    · rw [pyRangeStep_pos start stop step ⟨hstep, hlt⟩] at hi ⊢
      cases i with
      | zero => simp
      | succ i =>
        rw [List.getD_cons_succ]
        have hi' : i < (pyRangeStep (start + step) stop step).length := by
          simpa using hi
        rw [ih (start + step) stop i (by omega) hi']
        ring
    · rw [pyRangeStep_nil start stop step (by omega)] at hi
      simp at hi

/-- Concatenating the per-chunk index ranges rebuilds the suffix
`range'(start, B - start)` of the batch index sequence. -/
theorem chunk_ranges_flatten (cs : ℕ) (hcs : 0 < cs) :
    ∀ (n start B : ℕ), B - start ≤ n →
      ((pyRangeStep start B cs).map
        (fun s => List.range' s (min (s + cs) B - s))).flatten
      = List.range' start (B - start) := by
  intro n
  induction n with
  | zero =>
    intro start B hle
    rw [pyRangeStep_nil start B cs (by omega)]
    have : B - start = 0 := by omega
    simp [this]
  | succ n ih =>
    intro start B hle
    by_cases hlt : start < B
    · rw [pyRangeStep_pos start B cs ⟨hcs, hlt⟩]
      simp only [List.map_cons, List.flatten_cons]
      rw [ih (start + cs) B (by omega)]
      by_cases hend : start + cs ≤ B
      · have hmin : min (start + cs) B - start = cs := by omega
        rw [hmin]
        have happ := List.range'_append start cs (B - (start + cs)) 1
        simp only [one_mul] at happ
        rw [happ]
        congr 1
        omega
      · have hmin : min (start + cs) B - start = B - start := by omega
        rw [hmin]
        have hz : B - (start + cs) = 0 := by omega
        rw [hz]
        simp
    · rw [pyRangeStep_nil start B cs (by omega)]
      have : B - start = 0 := by omega
      simp [this]

/-- C3.  For every `chunkSize ≥ 1`: chunk `i` covers exactly the batch
interval `[i*chunkSize, min((i+1)*chunkSize, B))`, every chunk holds at
most `chunkSize` batches, the concatenation of all chunks in emission
order is exactly `[0..B)`, the chunk sizes sum to `B`, and the chunked
export emits one subset export per chunk range under the names
`chunk_0.attnbin, chunk_1.attnbin, ...` in emission order. -/
theorem c3_chunked_export (reaction_ids : List String)
    (reaction_names_dict : List (String × String))
    (attention_tensors : List NDArray) (input_bounds : NDArray)
    (B chunk_size : ℕ) (fp16 : Bool)
    (hB : (attention_tensors.headD emptyNDArray).shape.getD 0 0 = B)
    (hcs : 1 ≤ chunk_size) :
    (∀ i, i < (chunkIndexRanges B chunk_size).length →
      (chunkIndexRanges B chunk_size).getD i []
        = List.range' (i * chunk_size)
            (min ((i + 1) * chunk_size) B - i * chunk_size))
    ∧ (∀ r ∈ chunkIndexRanges B chunk_size, r.length ≤ chunk_size)
    ∧ (chunkIndexRanges B chunk_size).flatten = List.range B
    ∧ ((chunkIndexRanges B chunk_size).map List.length).sum = B
    ∧ export_attention_chunked reaction_ids reaction_names_dict
        attention_tensors input_bounds chunk_size fp16
      = (chunkIndexRanges B chunk_size).enum.map
          (fun p => ("chunk_" ++ toString p.1 ++ ".attnbin",
            export_attention_subset reaction_ids reaction_names_dict
              attention_tensors input_bounds (some p.2) fp16)) := by
  have hcs0 : 0 < chunk_size := hcs
  have hflat : (chunkIndexRanges B chunk_size).flatten = List.range B := by
    unfold chunkIndexRanges
    rw [chunk_ranges_flatten chunk_size hcs0 B 0 B (by omega), Nat.sub_zero,
      List.range_eq_range']
  refine ⟨?_, ?_, hflat, ?_, ?_⟩
  · intro i hi
    unfold chunkIndexRanges at hi ⊢
    simp only [List.length_map] at hi
    rw [List.getD_eq_getElem _ _ (by simpa using hi), List.getElem_map]
    have hstart : (pyRangeStep 0 B chunk_size).getD i 0 = 0 + i * chunk_size := by
      rw [pyRangeStep_getD chunk_size hcs0 B 0 B i (by omega) hi]
    rw [List.getD_eq_getElem _ _ hi] at hstart
    rw [hstart]
    have h2 : (i + 1) * chunk_size = i * chunk_size + chunk_size := by ring
    rw [h2]
    congr 1 <;> omega
  · intro r hr
    unfold chunkIndexRanges at hr
    rcases List.mem_map.mp hr with ⟨s, _, rfl⟩
    rw [List.length_range']
    omega
  · have := congrArg List.length hflat
    rw [List.length_flatten, List.length_range] at this
    exact this
  · simp only [export_attention_chunked, hB]

/-- Witness for C3 at `B = 7`, `chunkSize = 3`. -/
theorem c3_chunked_export_witness :
    (chunkIndexRanges 7 3).flatten = List.range 7 :=
  (c3_chunked_export [] [] [⟨[7, 1, 1, 1], []⟩] ⟨[7, 1], []⟩ 7 3 true
    (by decide) (by decide)).2.2.1

/-- Block extraction from a flattening of equal-length blocks. -/
theorem flatten_blocks_getD (rs : ℕ) :
    ∀ (ls : List (List ℚ)), (∀ l ∈ ls, l.length = rs) →
      ∀ k, k < ls.length →
        (ls.flatten.drop (k * rs)).take rs = ls.getD k [] := by
  intro ls
  induction ls with
  | nil =>
    intro _ k hk
    simp at hk
  | cons a t ih =>
    intro hlen k hk
    have ha : a.length = rs := hlen a (List.mem_cons_self _ _)
    cases k with
    | zero =>
      simp only [List.flatten_cons, Nat.zero_mul, List.drop_zero,
        List.getD_cons_zero]
      rw [← ha, List.take_left]
    | succ k =>
      simp only [List.flatten_cons, List.getD_cons_succ]
      have hmul : (k + 1) * rs = a.length + k * rs := by
        rw [ha]; ring
      rw [hmul, ← List.drop_drop, List.drop_left]
      exact ih (fun l hl => hlen l (List.mem_cons_of_mem _ hl)) k
        (by simpa using hk)

/-- Each axis-0 slice of a well-formed array has exactly `rowLen`
scalars. -/
theorem NDArray.row_length (t : NDArray) (hwf : t.wellFormed) (j : ℕ)
    (hj : j < t.shape.headD 0) : (t.row j).length = t.rowLen := by
  unfold NDArray.row
  rw [List.length_take, List.length_drop]
  cases hs : t.shape with
  | nil => rw [hs] at hj; simp at hj
  | cons d tail =>
    rw [hs] at hj
    simp only [List.headD_cons] at hj
    have hdata : t.data.length = d * t.rowLen := by
      have := hwf
      unfold NDArray.wellFormed at this
      rw [hs] at this
      simp only [List.prod_cons] at this
      unfold NDArray.rowLen
      rw [hs]
      simpa using this
    have hge : t.rowLen ≤ t.data.length - j * t.rowLen := by
      rw [hdata]
      have h1 : (j + 1) * t.rowLen ≤ d * t.rowLen :=
        Nat.mul_le_mul_right _ (by omega)
      have h2 : (j + 1) * t.rowLen = j * t.rowLen + t.rowLen := by ring
      omega
    omega

/-- Fancy indexing keeps the trailing shape and is well-formed. -/
theorem NDArray.index0_wellFormed (t : NDArray) (idxs : List ℕ)
    (hwf : t.wellFormed) (hidx : ∀ j ∈ idxs, j < t.shape.headD 0) :
    (t.index0 idxs).wellFormed := by
  unfold NDArray.wellFormed NDArray.index0
  simp only [List.prod_cons, List.length_flatten]
  have hmap : (idxs.map t.row).map List.length
      = idxs.map (fun _ => t.rowLen) := by
    rw [List.map_map]
    apply List.map_congr_left
    intro j hj
    exact t.row_length hwf j (hidx j hj)
  rw [hmap]
  have : idxs.map (fun _ => t.rowLen)
      = List.replicate idxs.length t.rowLen := List.map_const idxs t.rowLen
  rw [this, List.sum_replicate]
  simp [NDArray.rowLen]

/-- Fancy indexing is a pure projection: slice `k` of `t[idxs]` is slice
`idxs[k]` of `t`. -/
theorem NDArray.index0_row (t : NDArray) (idxs : List ℕ)
    (hwf : t.wellFormed) (hidx : ∀ j ∈ idxs, j < t.shape.headD 0)
    (k : ℕ) (hk : k < idxs.length) :
    (t.index0 idxs).row k = t.row (idxs.getD k 0) := by
  have hrl : (t.index0 idxs).rowLen = t.rowLen := rfl
  unfold NDArray.row
  rw [hrl]
  show ((idxs.map t.row).flatten.drop (k * t.rowLen)).take t.rowLen = _
  rw [flatten_blocks_getD t.rowLen (idxs.map t.row)
    (fun l hl => by
      rcases List.mem_map.mp hl with ⟨j, hj, rfl⟩
      exact t.row_length hwf j (hidx j hj))
    k (by simpa using hk)]
  rw [List.getD_eq_getElem _ _ (by simpa using hk), List.getElem_map,
    List.getD_eq_getElem _ _ hk]
  rfl

/-- C4.  Subset export with batch index list `idxs` (duplicates and
arbitrary order honored) encodes exactly the projected dataset: it equals
the fp16 or float32 full export applied to the dataset whose bounds and
layers were fancy-indexed by `idxs`, and fancy indexing itself takes
slice `k` to original slice `idxs[k]`, keeping the trailing shape and
well-formedness. -/
theorem c4_subset_export (reaction_ids : List String)
    (reaction_names_dict : List (String × String))
    (attention_tensors : List NDArray) (input_bounds : NDArray)
    (idxs : List ℕ) (fp16 : Bool) :
    export_attention_subset reaction_ids reaction_names_dict
        attention_tensors input_bounds (some idxs) fp16
      = (if fp16 then export_attention_data_fp16 else export_attention_data)
          reaction_ids reaction_names_dict
          (attention_tensors.map (fun t => t.index0 idxs))
          (input_bounds.index0 idxs)
    ∧ (∀ t : NDArray, t.wellFormed → (∀ j ∈ idxs, j < t.shape.headD 0) →
        (t.index0 idxs).shape = idxs.length :: t.shape.tail
        ∧ (t.index0 idxs).wellFormed
        ∧ ∀ k, k < idxs.length →
            (t.index0 idxs).row k = t.row (idxs.getD k 0)) := by
  constructor
  · cases fp16 with
    | false => simp [export_attention_subset]
    | true => simp [export_attention_subset]
  · intro t hwf hidx
    exact ⟨rfl, t.index0_wellFormed idxs hwf hidx,
      fun k hk => t.index0_row idxs hwf hidx k hk⟩

/-- Characterization of the layer-validation loop with start index `k`:
it reports exactly the first offending layer and its actual shape. -/
theorem checkLayersFrom_some_iff (e : List ℕ) :
    ∀ (ts : List NDArray) (k i : ℕ) (s : List ℕ),
      checkLayersFrom e k ts = some (i, s) ↔
        (k ≤ i ∧ i - k < ts.length
          ∧ (ts.getD (i - k) emptyNDArray).shape = s ∧ s ≠ e
          ∧ ∀ j, j < i - k → (ts.getD j emptyNDArray).shape = e) := by
  intro ts
  induction ts with
  | nil =>
    intro k i s
    simp [checkLayersFrom]
  | cons t rest ih =>
    intro k i s
    by_cases hsh : t.shape ≠ e
    · simp only [checkLayersFrom, if_pos hsh]
      constructor
      · intro h
        have h' : (k, t.shape) = (i, s) := Option.some.inj h
        have hik : k = i ∧ t.shape = s := by simpa using h'
        obtain ⟨hik1, hik2⟩ := hik
        subst hik1
        refine ⟨le_refl k, by simp, ?_, by rw [← hik2]; exact hsh, ?_⟩
        · simp only [Nat.sub_self, List.getD_cons_zero]
          exact hik2
        · intro j hj
          omega
      · rintro ⟨hki, _, hget, hne, hprev⟩
        by_cases hik : i = k
        · subst hik
          simp only [Nat.sub_self, List.getD_cons_zero] at hget
          rw [hget]
        · exact absurd (by simpa using hprev 0 (by omega)) hsh
    · push_neg at hsh
      simp only [checkLayersFrom, if_neg (not_not_intro hsh)]
      rw [ih (k + 1) i s]
      constructor
      · rintro ⟨h1, h2, h3, h4, h5⟩
        refine ⟨by omega, by simp only [List.length_cons]; omega, ?_, h4, ?_⟩
        · have hik : i - k = (i - (k + 1)) + 1 := by omega
          rw [hik, List.getD_cons_succ]
          exact h3
        · intro j hj
          cases j with
          | zero => simpa using hsh
          | succ j =>
            rw [List.getD_cons_succ]
            exact h5 j (by omega)
      · rintro ⟨h1, h2, h3, h4, h5⟩
        have hik : k + 1 ≤ i := by
          by_contra hle
          have hik0 : i = k := by omega
          subst hik0
          simp only [Nat.sub_self, List.getD_cons_zero] at h3
          exact h4 (by rw [← h3, hsh])
        refine ⟨hik, by simp only [List.length_cons] at h2; omega, ?_, h4, ?_⟩
        · have hik2 : i - k = (i - (k + 1)) + 1 := by omega
          rw [hik2, List.getD_cons_succ] at h3
          exact h3
        · intro j hj
          have hj' := h5 (j + 1) (by omega)
          rw [List.getD_cons_succ] at hj'
          exact hj'

/-- The validation loop succeeds exactly when every layer matches. -/
theorem checkLayersFrom_none_iff (e : List ℕ) :
    ∀ (ts : List NDArray) (k : ℕ),
      checkLayersFrom e k ts = none ↔ ∀ t ∈ ts, t.shape = e := by
  intro ts
  induction ts with
  | nil => intro k; simp [checkLayersFrom]
  | cons t rest ih =>
    intro k
    by_cases hsh : t.shape ≠ e
    · simp [checkLayersFrom, hsh]
    · push_neg at hsh
      simp [checkLayersFrom, hsh, ih (k + 1)]

/-- `checkLayers` names exactly the first offending layer index with its
actual shape. -/
theorem checkLayers_some_iff (e : List ℕ) (ts : List NDArray) (i : ℕ)
    (s : List ℕ) :
    checkLayers e ts = some (i, s) ↔
      (i < ts.length ∧ (ts.getD i emptyNDArray).shape = s ∧ s ≠ e
        ∧ ∀ j, j < i → (ts.getD j emptyNDArray).shape = e) := by
  unfold checkLayers
  rw [checkLayersFrom_some_iff]
  simp

/-- `checkLayers` passes exactly when every layer matches. -/
theorem checkLayers_none_iff (e : List ℕ) (ts : List NDArray) :
    checkLayers e ts = none ↔ ∀ t ∈ ts, t.shape = e :=
  checkLayersFrom_none_iff e ts 0

/-- Evaluation of the float32 export once the first tensor's shape is
known. -/
theorem export_attention_data_eq (reaction_ids : List String)
    (reaction_names_dict : List (String × String))
    (attention_tensors : List NDArray) (input_bounds : NDArray)
    (B H N D : ℕ)
    (h0 : (attention_tensors.headD emptyNDArray).shape = [B, H, N, D]) :
    export_attention_data reaction_ids reaction_names_dict
        attention_tensors input_bounds
      = (if reaction_ids.length ≠ N then
          .error (.idsLength reaction_ids.length N)
        else if input_bounds.shape ≠ [B, N] then
          .error (.boundsShape input_bounds.shape [B, N])
        else
          match checkLayers [B, H, N, N] attention_tensors with
          | some (i, s) => .error (.layerShape i s [B, H, N, N])
          | none =>
            .ok ⟨N, B, H, attention_tensors.length, none, reaction_ids,
              reaction_ids.map (fun rid =>
                (reaction_names_dict.lookup rid).getD rid),
              input_bounds.data, attention_tensors.map NDArray.data⟩) := by
  unfold export_attention_data
  rw [h0]
  rfl

/-- Evaluation of the fp16 export once the first tensor's shape is
known. -/
theorem export_attention_data_fp16_eq (reaction_ids : List String)
    (reaction_names_dict : List (String × String))
    (attention_tensors : List NDArray) (input_bounds : NDArray)
    (B H N D : ℕ)
    (h0 : (attention_tensors.headD emptyNDArray).shape = [B, H, N, D]) :
    export_attention_data_fp16 reaction_ids reaction_names_dict
        attention_tensors input_bounds
      = (if reaction_ids.length ≠ N then
          .error (.idsLength reaction_ids.length N)
        else if input_bounds.shape ≠ [B, N] then
          .error (.boundsShape input_bounds.shape [B, N])
        else
          .ok ⟨N, B, H, attention_tensors.length, some "float16", reaction_ids,
            reaction_ids.map (fun rid =>
              (reaction_names_dict.lookup rid).getD rid),
            input_bounds.data, attention_tensors.map NDArray.data⟩) := by
  unfold export_attention_data_fp16
  rw [h0]
  rfl

/-- C5 (amended).  With `(B, H, N)` read from the first layer's shape:
the float32 export succeeds exactly when `len(reaction_ids) = N`, the
bounds shape is `(B, N)` and every layer's shape is `(B, H, N, N)`; when
the id and bounds checks pass and some layer is ill-shaped, it fails
with a `layerShape` error naming the first offending layer index and its
actual versus expected shape (and produces no encoded file); and
`checkLayers` reports exactly that first offender.  The fp16 export,
in contrast, succeeds whenever the id and bounds checks pass — it never
validates the per-layer shapes. -/
theorem c5_shape_validation (reaction_ids : List String)
    (reaction_names_dict : List (String × String))
    (attention_tensors : List NDArray) (input_bounds : NDArray)
    (B H N D : ℕ)
    (h0 : (attention_tensors.headD emptyNDArray).shape = [B, H, N, D]) :
    ((∃ f, export_attention_data reaction_ids reaction_names_dict
        attention_tensors input_bounds = .ok f)
      ↔ (reaction_ids.length = N ∧ input_bounds.shape = [B, N]
          ∧ ∀ t ∈ attention_tensors, t.shape = [B, H, N, N]))
    ∧ (∀ i s, reaction_ids.length = N → input_bounds.shape = [B, N] →
        checkLayers [B, H, N, N] attention_tensors = some (i, s) →
          export_attention_data reaction_ids reaction_names_dict
            attention_tensors input_bounds
            = .error (.layerShape i s [B, H, N, N]))
    ∧ (∀ i s, checkLayers [B, H, N, N] attention_tensors = some (i, s) ↔
        (i < attention_tensors.length
          ∧ (attention_tensors.getD i emptyNDArray).shape = s
          ∧ s ≠ [B, H, N, N]
          ∧ ∀ j, j < i →
              (attention_tensors.getD j emptyNDArray).shape = [B, H, N, N]))
    ∧ ((∃ f, export_attention_data_fp16 reaction_ids reaction_names_dict
        attention_tensors input_bounds = .ok f)
      ↔ (reaction_ids.length = N ∧ input_bounds.shape = [B, N])) := by
  have heq := export_attention_data_eq reaction_ids reaction_names_dict
    attention_tensors input_bounds B H N D h0
  have heq16 := export_attention_data_fp16_eq reaction_ids
    reaction_names_dict attention_tensors input_bounds B H N D h0
  refine ⟨?_, ?_, fun i s => checkLayers_some_iff _ _ i s, ?_⟩
  · constructor
    · rintro ⟨f, hf⟩
      rw [heq] at hf
      by_cases h1 : reaction_ids.length ≠ N
      · rw [if_pos h1] at hf
        simp at hf
      · rw [if_neg h1] at hf
        push_neg at h1
        by_cases h2 : input_bounds.shape ≠ [B, N]
        · rw [if_pos h2] at hf
          simp at hf
        · rw [if_neg h2] at hf
          push_neg at h2
          cases hcl : checkLayers [B, H, N, N] attention_tensors with
          | some p =>
            rw [hcl] at hf
            cases p
            simp at hf
          | none =>
            exact ⟨h1, h2, (checkLayers_none_iff _ _).mp hcl⟩
    · rintro ⟨h1, h2, h3⟩
      have hnone : checkLayers [B, H, N, N] attention_tensors = none :=
        (checkLayers_none_iff _ _).mpr h3
      rw [heq, if_neg (not_not_intro h1), if_neg (not_not_intro h2), hnone]
      exact ⟨_, rfl⟩
  · intro i s h1 h2 hcl
    rw [heq, if_neg (not_not_intro h1), if_neg (not_not_intro h2), hcl]
  · constructor
    · rintro ⟨f, hf⟩
      rw [heq16] at hf
      by_cases h1 : reaction_ids.length ≠ N
      · rw [if_pos h1] at hf
        simp at hf
      · rw [if_neg h1] at hf
        push_neg at h1
        by_cases h2 : input_bounds.shape ≠ [B, N]
        · rw [if_pos h2] at hf
          simp at hf
        · push_neg at h2
          exact ⟨h1, h2⟩
    · rintro ⟨h1, h2⟩
      rw [heq16, if_neg (not_not_intro h1), if_neg (not_not_intro h2)]
      exact ⟨_, rfl⟩

/-- Counterexample to C5 as stated: the fp16 export performs no
per-layer shape validation.  A dataset whose layer 1 has shape
(1,1,2,2), while layer 0 dictates (B,H,N,N) = (1,1,1,1), is encoded
without any error by `export_attention_data_fp16`; the float32 path
rejects the same dataset naming layer 1 with its actual and expected
shapes. -/
theorem c5_counterexample :
    (⟨[1, 1, 2, 2], [0, 0, 0, 0]⟩ : NDArray).shape ≠ [1, 1, 1, 1]
    ∧ (export_attention_data_fp16 ["a"] []
        [⟨[1, 1, 1, 1], [0]⟩, ⟨[1, 1, 2, 2], [0, 0, 0, 0]⟩]
        ⟨[1, 1], [0]⟩).isOk = true
    ∧ export_attention_data ["a"] []
        [⟨[1, 1, 1, 1], [0]⟩, ⟨[1, 1, 2, 2], [0, 0, 0, 0]⟩]
        ⟨[1, 1], [0]⟩
      = .error (.layerShape 1 [1, 1, 2, 2] [1, 1, 1, 1]) := by
  refine ⟨by decide, rfl, rfl⟩

/-- Witness for C5 (amended) at a concrete well-shaped dataset. -/
theorem c5_shape_validation_witness :
    (∃ f, export_attention_data_fp16 ["a"] []
        [⟨[1, 1, 1, 1], [(0 : ℚ)]⟩] ⟨[1, 1], [0]⟩ = .ok f)
      ↔ ((["a"] : List String).length = 1
          ∧ (⟨[1, 1], [(0 : ℚ)]⟩ : NDArray).shape = [1, 1]) :=
  (c5_shape_validation ["a"] [] [⟨[1, 1, 1, 1], [0]⟩] ⟨[1, 1], [0]⟩
    1 1 1 1 (by decide)).2.2.2
